import Mathlib

/-!
Verification of `test_helpers/scipy_comparison.py`: a script that evaluates
spherical harmonics over a fixed grid of degrees, orders and angles and
prints the results as CSV rows.

The script is embedded shallowly: the angle grids become lists of real
numbers, the nested `for` loops become nested `List.flatMap`, and each
printed CSV line becomes a string built from the row's fields.  The
delegated routine `scipy.special.sph_harm` is not part of the repository,
so the embedding is parameterised over an arbitrary complex-valued
function `sph : ℤ → ℕ → ℝ → ℝ → ℂ`; a concrete model of the routine,
taken from the spec's mathematical formula, is provided separately for
the claims that need actual values.
-/

open Real

namespace ScipyComparison

/-- Constant `num_phis = 10` from the script. -/
def num_phis : ℕ := 10

/-- Constant `num_thetas = 2 * num_phis` from the script. -/
def num_thetas : ℕ := 2 * num_phis

/-- Constant `n_max = 10` from the script. -/
def n_max : ℕ := 10

/-- Grid `thetas = [2 * pi / num_thetas * x for x in list(range(0, num_thetas, 1))]`. -/
noncomputable def thetas : List ℝ :=
  (List.range num_thetas).map (fun (x : ℕ) => 2 * π / num_thetas * (x : ℝ))

/-- Grid `phis = [pi / num_phis * x for x in list(range(0, num_phis, 1))]`. -/
noncomputable def phis : List ℝ :=
  (List.range num_phis).map (fun (x : ℕ) => π / num_phis * (x : ℝ))

/-- One CSV data row: the values interpolated into
`"{},{},{},{},{},{}".format(n, m, theta, phi, res.real, res.imag)`. -/
@[ext]
structure Row where
  n : ℕ
  m : ℤ
  theta : ℝ
  phi : ℝ
  sph_re : ℝ
  sph_im : ℝ

/-- Python's `range(-n, n + 1)`: the integers from `-n` to `n` in ascending
order, as iterated by `for m in range(-n, n + 1)`. -/
def mRange (n : ℕ) : List ℤ :=
  (List.range (2 * n + 1)).map (fun (i : ℕ) => (i : ℤ) - n)

/-- The sequence of data rows produced by the four nested loops
`for n ... for m ... for phi in phis ... for theta in thetas`,
parameterised over the delegated function `sph` standing for
`scipy.special.sph_harm`.  Each iteration computes
`res = sph_harm(m, n, theta, phi)` and records
`(n, m, theta, phi, res.real, res.imag)`. -/
noncomputable def rows (sph : ℤ → ℕ → ℝ → ℝ → ℂ) : List Row :=
  (List.range (n_max + 1)).flatMap (fun n =>
    (mRange n).flatMap (fun m =>
      phis.flatMap (fun phi =>
        thetas.map (fun theta =>
          let res := sph m n theta phi
          { n := n, m := m, theta := theta, phi := phi,
            sph_re := res.re, sph_im := res.im }))))

/-- The header line `print("n,m,theta,phi,sph_re,sph_im")`. -/
def header : String := "n,m,theta,phi,sph_re,sph_im"

/-- One printed data line:
`"{},{},{},{},{},{}".format(n, m, theta, phi, res.real, res.imag)`.
Integer fields use their decimal rendering; float fields use the
language-native float-to-string conversion, abstracted as `fmt`. -/
def renderRow (fmt : ℝ → String) (r : Row) : String :=
  toString r.n ++ "," ++ toString r.m ++ "," ++ fmt r.theta ++ "," ++ fmt r.phi
    ++ "," ++ fmt r.sph_re ++ "," ++ fmt r.sph_im

/-- The full sequence of lines printed to standard output: the header
followed by one line per data row. -/
noncomputable def outputLines (fmt : ℝ → String) (sph : ℤ → ℕ → ℝ → ℝ → ℂ) :
    List String :=
  header :: (rows sph).map (renderRow fmt)

/-! ### Index-level view of the iteration

The angle lists are generated by mapping over `List.range`, so the whole
iteration is the image of a list of index tuples `(n, m, j, k)` where `j`
indexes `phis` and `k` indexes `thetas`.  This computable view is used to
count rows and to state the iteration order. -/

/-- The value `thetas[k]`. -/
noncomputable def thetaVal (k : ℕ) : ℝ := 2 * π / num_thetas * k

/-- The value `phis[j]`. -/
noncomputable def phiVal (j : ℕ) : ℝ := π / num_phis * j

/-- All iteration index tuples `(n, m, j, k)` in generation order. -/
def indexTuples : List (ℕ × ℤ × ℕ × ℕ) :=
  (List.range (n_max + 1)).flatMap (fun n =>
    (mRange n).flatMap (fun m =>
      (List.range num_phis).flatMap (fun j =>
        (List.range num_thetas).map (fun k => (n, m, j, k)))))

/-- The row generated at index tuple `(n, m, j, k)`. -/
noncomputable def rowOf (sph : ℤ → ℕ → ℝ → ℝ → ℂ) (t : ℕ × ℤ × ℕ × ℕ) : Row :=
  { n := t.1, m := t.2.1, theta := thetaVal t.2.2.2, phi := phiVal t.2.2.1,
    sph_re := (sph t.2.1 t.1 (thetaVal t.2.2.2) (phiVal t.2.2.1)).re,
    sph_im := (sph t.2.1 t.1 (thetaVal t.2.2.2) (phiVal t.2.2.1)).im }

theorem rows_eq_map_indexTuples (sph : ℤ → ℕ → ℝ → ℝ → ℂ) :
    rows sph = indexTuples.map (rowOf sph) := by
  simp only [rows, indexTuples, thetas, phis, thetaVal, phiVal, rowOf,
    List.flatMap_map, List.map_flatMap, List.map_map, Function.comp_def]

/-- Strict lexicographic order on index tuples, outermost key first:
`n`, then `m`, then the `phi` index `j`, then the `theta` index `k`. -/
def idxLT (a b : ℕ × ℤ × ℕ × ℕ) : Prop :=
  a.1 < b.1 ∨ (a.1 = b.1 ∧ (a.2.1 < b.2.1 ∨ (a.2.1 = b.2.1 ∧
    (a.2.2.1 < b.2.2.1 ∨ (a.2.2.1 = b.2.2.1 ∧ a.2.2.2 < b.2.2.2)))))

theorem idxLT_irrefl (a : ℕ × ℤ × ℕ × ℕ) : ¬ idxLT a a := by
  simp [idxLT]

theorem mem_mRange {n : ℕ} {m : ℤ} : m ∈ mRange n ↔ -(n : ℤ) ≤ m ∧ m ≤ n := by
  rw [mRange, List.mem_map]
  constructor
  · rintro ⟨i, hi, rfl⟩
    rw [List.mem_range] at hi
    omega
  · rintro ⟨h1, h2⟩
    exact ⟨(m + n).toNat, List.mem_range.mpr (by omega), by omega⟩

theorem mem_indexTuples {n : ℕ} {m : ℤ} {j k : ℕ} :
    (n, m, j, k) ∈ indexTuples ↔
      n ≤ 10 ∧ -(n : ℤ) ≤ m ∧ m ≤ n ∧ j < 10 ∧ k < 20 := by
  simp only [indexTuples, List.mem_flatMap, List.mem_map, List.mem_range,
    n_max, num_phis, num_thetas]
  constructor
  · rintro ⟨n', hn', m', hm', j', hj', k', hk', h⟩
    simp only [Prod.mk.injEq] at h
    obtain ⟨rfl, rfl, rfl, rfl⟩ := h
    exact ⟨by omega, (mem_mRange.mp hm').1, (mem_mRange.mp hm').2, hj', hk'⟩
  · rintro ⟨h1, h2, h3, h4, h5⟩
    exact ⟨n, by omega, m, mem_mRange.mpr ⟨h2, h3⟩, j, h4, ⟨k, h5, rfl⟩⟩

theorem indexTuples_pairwise : List.Pairwise idxLT indexTuples := by
  have hmap : ∀ (n : ℕ) (m : ℤ) (j : ℕ),
      List.Pairwise idxLT ((List.range num_thetas).map
        (fun k => (n, m, j, k))) := by
    intro n m j
    rw [List.pairwise_map]
    exact (List.pairwise_lt_range _).imp (fun h => Or.inr ⟨rfl, Or.inr ⟨rfl, Or.inr ⟨rfl, h⟩⟩⟩)
  have hj : ∀ (n : ℕ) (m : ℤ),
      List.Pairwise idxLT ((List.range num_phis).flatMap (fun j =>
        (List.range num_thetas).map (fun k => (n, m, j, k)))) := by
    intro n m
    rw [List.pairwise_flatMap]
    refine ⟨fun j _ => hmap n m j, ?_⟩
    refine (List.pairwise_lt_range _).imp ?_
    intro a b hab x hx y hy
    simp only [List.mem_map, List.mem_range] at hx hy
    obtain ⟨k1, -, rfl⟩ := hx
    obtain ⟨k2, -, rfl⟩ := hy
    exact Or.inr ⟨rfl, Or.inr ⟨rfl, Or.inl hab⟩⟩
  have hm : ∀ n : ℕ,
      List.Pairwise idxLT ((mRange n).flatMap (fun m =>
        (List.range num_phis).flatMap (fun j =>
          (List.range num_thetas).map (fun k => (n, m, j, k))))) := by
    intro n
    rw [List.pairwise_flatMap]
    refine ⟨fun m _ => hj n m, ?_⟩
    rw [mRange, List.pairwise_map]
    refine (List.pairwise_lt_range _).imp ?_
    intro a b hab x hx y hy
    simp only [List.mem_flatMap, List.mem_map, List.mem_range] at hx hy
    obtain ⟨j1, -, k1, -, rfl⟩ := hx
    obtain ⟨j2, -, k2, -, rfl⟩ := hy
    exact Or.inr ⟨rfl, Or.inl (show (a : ℤ) - n < (b : ℤ) - n by omega)⟩
  rw [indexTuples, List.pairwise_flatMap]
  refine ⟨fun n _ => hm n, ?_⟩
  refine (List.pairwise_lt_range _).imp ?_
  intro a b hab x hx y hy
  simp only [List.mem_flatMap, List.mem_map, List.mem_range] at hx hy
  obtain ⟨m1, -, j1, -, k1, -, rfl⟩ := hx
  obtain ⟨m2, -, j2, -, k2, -, rfl⟩ := hy
  exact Or.inl hab

theorem indexTuples_nodup : indexTuples.Nodup := by
  refine List.Pairwise.imp ?_ indexTuples_pairwise
  intro a b hab
  intro h
  subst h
  exact idxLT_irrefl a hab

theorem indexTuples_length : indexTuples.length = 24200 := by
  simp only [indexTuples, n_max, num_phis, num_thetas]
  simp [List.length_flatMap, mRange, Function.comp_def]
  decide

/-! ### The angle grids -/

theorem thetas_length : thetas.length = 20 := by
  simp [thetas, num_thetas, num_phis]

theorem phis_length : phis.length = 10 := by
  simp [phis, num_phis]

theorem thetas_getElem {k : ℕ} (h : k < 20) : thetas[k]? = some (thetaVal k) := by
  rw [thetas, List.getElem?_map, List.getElem?_range (by simpa [num_thetas, num_phis] using h)]
  rfl

theorem phis_getElem {j : ℕ} (h : j < 10) : phis[j]? = some (phiVal j) := by
  rw [phis, List.getElem?_map, List.getElem?_range (by simpa [num_phis] using h)]
  rfl

theorem thetaVal_eq (k : ℕ) : thetaVal k = π / 10 * k := by
  rw [thetaVal, num_thetas, num_phis]
  push_cast
  ring

theorem phiVal_eq (j : ℕ) : phiVal j = π / 10 * j := by
  rw [phiVal, num_phis]
  push_cast
  ring

theorem thetaVal_lt {a b : ℕ} (h : a < b) : thetaVal a < thetaVal b := by
  rw [thetaVal_eq, thetaVal_eq]
  have hp : (0 : ℝ) < π / 10 := by positivity
  exact mul_lt_mul_of_pos_left (by exact_mod_cast h) hp

theorem phiVal_lt {a b : ℕ} (h : a < b) : phiVal a < phiVal b := by
  rw [phiVal_eq, phiVal_eq]
  have hp : (0 : ℝ) < π / 10 := by positivity
  exact mul_lt_mul_of_pos_left (by exact_mod_cast h) hp

theorem thetas_sorted : List.Pairwise (fun a b : ℝ => a < b) thetas := by
  rw [thetas, List.pairwise_map]
  exact (List.pairwise_lt_range _).imp (fun h => thetaVal_lt h)

theorem phis_sorted : List.Pairwise (fun a b : ℝ => a < b) phis := by
  rw [phis, List.pairwise_map]
  exact (List.pairwise_lt_range _).imp (fun h => phiVal_lt h)

theorem thetas_getD {k : ℕ} (h : k < 20) : thetas.getD k 0 = π / 10 * k := by
  rw [List.getD_eq_getElem?_getD, thetas_getElem h, Option.getD_some, thetaVal_eq]

theorem phis_getD {j : ℕ} (h : j < 10) : phis.getD j 0 = π / 10 * j := by
  rw [List.getD_eq_getElem?_getD, phis_getElem h, Option.getD_some, phiVal_eq]

/-! ### A model of the delegated routine `scipy.special.sph_harm`

The routine lives in scipy, outside this repository, so it is modelled
from the spec's mathematical formula. -/

/-- Modelled from the spec: the Legendre polynomial `P_n`, via the
Rodrigues formula `P_n = 1/(2^n n!) d^n/dx^n (x^2 - 1)^n`, the standard
definition underlying the spec's associated Legendre function `P_n^m`. -/
noncomputable def legendre (n : ℕ) : Polynomial ℝ :=
  Polynomial.C ((2 ^ n * n.factorial : ℝ))⁻¹ *
    (fun p => Polynomial.derivative p)^[n] ((Polynomial.X ^ 2 - 1) ^ n)

/-- Modelled from the spec: the associated Legendre function `P_n^m` for
`m ≥ 0`, with the Condon-Shortley phase `(-1)^m` (the convention of the
reference library, which the spec leaves implementation-defined):
`P_n^m(x) = (-1)^m (1-x^2)^(m/2) d^m/dx^m P_n(x)`. -/
noncomputable def assocLegendrePos (n m : ℕ) (x : ℝ) : ℝ :=
  (-1 : ℝ) ^ m * Real.sqrt (1 - x ^ 2) ^ m *
    ((fun p => Polynomial.derivative p)^[m] (legendre n)).eval x

/-- Modelled from the spec: the associated Legendre function `P_n^m` for
integer order, extended to negative `m` by
`P_n^(-m) = (-1)^m (n-m)!/(n+m)! P_n^m`. -/
noncomputable def assocLegendre (n : ℕ) (m : ℤ) (x : ℝ) : ℝ :=
  if 0 ≤ m then assocLegendrePos n m.toNat x
  else (-1 : ℝ) ^ m.natAbs * ((n - m.natAbs).factorial : ℝ) /
    ((n + m.natAbs).factorial : ℝ) * assocLegendrePos n m.natAbs x

/-- Modelled from the spec: the delegated routine `scipy.special.sph_harm`
(not part of this repository), per the spec's formula
`Y_n^m(phi, theta) = sqrt((2n+1)/(4 pi) * (n-m)!/(n+m)!) * P_n^m(cos phi) * e^(i m theta)`,
taking its arguments in scipy's order `(m, n, theta, phi)`. -/
noncomputable def sph_harm (m : ℤ) (n : ℕ) (theta phi : ℝ) : ℂ :=
  ((Real.sqrt ((2 * n + 1) / (4 * π) * (((n : ℤ) - m).toNat.factorial : ℝ) /
      (((n : ℤ) + m).toNat.factorial : ℝ)) : ℝ) : ℂ) *
    ((assocLegendre n m (Real.cos phi) : ℝ) : ℂ) *
    Complex.exp (Complex.I * m * theta)

/-- Modelled from the spec: the domain check of the delegated routine,
which rejects a degree/order pair with `|m| > n` (the only domain error
the spec's formula admits for integer arguments). -/
noncomputable def sph_harm_checked (m : ℤ) (n : ℕ) (theta phi : ℝ) : Option ℂ :=
  if m.natAbs ≤ n then some (sph_harm m n theta phi) else none

theorem legendre_zero : legendre 0 = Polynomial.C 1 := by
  simp [legendre]

theorem assocLegendre_zero (x : ℝ) : assocLegendre 0 0 x = 1 := by
  simp [assocLegendre, assocLegendrePos, legendre_zero]

theorem sph_harm_zero_zero (theta phi : ℝ) :
    sph_harm 0 0 theta phi = ((1 / (2 * Real.sqrt π) : ℝ) : ℂ) := by
  rw [sph_harm, assocLegendre_zero]
  have h4 : Real.sqrt (4 * π) = 2 * Real.sqrt π := by
    rw [show (4 : ℝ) * π = 2 ^ 2 * π by ring, Real.sqrt_mul (by positivity),
      Real.sqrt_sq (by norm_num : (0:ℝ) ≤ 2)]
  have hc : (2 * ((0:ℕ) : ℝ) + 1) / (4 * π) * ((((0:ℕ) : ℤ) - (0:ℤ)).toNat.factorial : ℝ) /
      ((((0:ℕ) : ℤ) + (0:ℤ)).toNat.factorial : ℝ) = (4 * π)⁻¹ := by
    norm_num
  rw [hc, Real.sqrt_inv, h4]
  simp

/-! ### The sequence of calls to the delegated routine -/

/-- The argument tuples `(m, n, theta, phi)` passed to `sph_harm`, in the
order the script makes the calls. -/
noncomputable def sphCalls : List (ℤ × ℕ × ℝ × ℝ) :=
  (List.range (n_max + 1)).flatMap (fun n =>
    (mRange n).flatMap (fun m =>
      phis.flatMap (fun phi =>
        thetas.map (fun theta => (m, n, theta, phi)))))

/-- The call made at index tuple `(n, m, j, k)`. -/
noncomputable def callOf (t : ℕ × ℤ × ℕ × ℕ) : ℤ × ℕ × ℝ × ℝ :=
  (t.2.1, t.1, thetaVal t.2.2.2, phiVal t.2.2.1)

theorem sphCalls_eq_map_indexTuples :
    sphCalls = indexTuples.map callOf := by
  simp only [sphCalls, indexTuples, thetas, phis, thetaVal, phiVal, callOf,
    List.flatMap_map, List.map_flatMap, List.map_map, Function.comp_def]

/-! ### Per-(n, m) blocks of the iteration -/

/-- The `(n, m)` pairs iterated by the two outer loops, in order. -/
def nmPairs : List (ℕ × ℤ) :=
  (List.range (n_max + 1)).flatMap (fun n => (mRange n).map (fun m => (n, m)))

/-- The `(phi, theta)` combinations iterated by the two inner loops, in
order. -/
noncomputable def angleCombos : List (ℝ × ℝ) :=
  phis.flatMap (fun phi => thetas.map (fun theta => (phi, theta)))

/-- The rows generated by the two inner loops for one fixed `(n, m)`. -/
noncomputable def blockFor (sph : ℤ → ℕ → ℝ → ℝ → ℂ) (n : ℕ) (m : ℤ) : List Row :=
  phis.flatMap (fun phi =>
    thetas.map (fun theta =>
      let res := sph m n theta phi
      { n := n, m := m, theta := theta, phi := phi,
        sph_re := res.re, sph_im := res.im }))

theorem rows_eq_flatMap_blocks (sph : ℤ → ℕ → ℝ → ℝ → ℂ) :
    rows sph = nmPairs.flatMap (fun p => blockFor sph p.1 p.2) := by
  simp only [rows, nmPairs, blockFor, List.flatMap_assoc, List.flatMap_map]

theorem blockFor_angles (sph : ℤ → ℕ → ℝ → ℝ → ℂ) (n : ℕ) (m : ℤ) :
    (blockFor sph n m).map (fun r => (r.phi, r.theta)) = angleCombos := by
  simp only [blockFor, angleCombos, List.map_flatMap, List.map_map, Function.comp_def]

theorem nmPairs_length : nmPairs.length = 121 := by decide

theorem angleCombos_length : angleCombos.length = 200 := by
  simp [angleCombos, List.length_flatMap, Function.comp_def, thetas, phis,
    num_phis, num_thetas]

/-! ### Numeric bounds for the constant harmonic -/

theorem sqrt_pi_gt : (1.77245385 : ℝ) < Real.sqrt π := by
  refine (Real.lt_sqrt (by norm_num)).mpr ?_
  calc ((1.77245385 : ℝ)) ^ 2 < 3.14159265358979323846 := by norm_num
  _ < π := Real.pi_gt_d20

theorem sqrt_pi_lt : Real.sqrt π < 1.77245386 := by
  refine (Real.sqrt_lt' (by norm_num)).mpr ?_
  calc π < 3.14159265358979323847 := Real.pi_lt_d20
  _ < ((1.77245386 : ℝ)) ^ 2 := by norm_num

theorem sph_const_approx :
    |1 / (2 * Real.sqrt π) - 0.28209479177387814| < 1e-8 := by
  have h0 : (0 : ℝ) < 2 * Real.sqrt π := by
    have := Real.sqrt_nonneg π
    linarith [sqrt_pi_gt]
  have hcu : 1 / (2 * Real.sqrt π) < 1 / (2 * 1.77245385) :=
    one_div_lt_one_div_of_lt (by norm_num) (by linarith [sqrt_pi_gt])
  have hcl : 1 / (2 * 1.77245386) < 1 / (2 * Real.sqrt π) :=
    one_div_lt_one_div_of_lt h0 (by linarith [sqrt_pi_lt])
  rw [abs_lt]
  constructor
  · have : (0.28209479177387814 - 1e-8 : ℝ) < 1 / (2 * 1.77245386) := by norm_num
    linarith
  · have : (1 / (2 * 1.77245385) : ℝ) < 0.28209479177387814 + 1e-8 := by norm_num
    linarith

/-! ### Membership facts about the generated rows -/

theorem mem_rows_bounds {sph : ℤ → ℕ → ℝ → ℝ → ℂ} {r : Row} (h : r ∈ rows sph) :
    r.n ≤ 10 ∧ -(r.n : ℤ) ≤ r.m ∧ r.m ≤ r.n := by
  rw [rows_eq_map_indexTuples] at h
  obtain ⟨⟨n, m, j, k⟩, ht, rfl⟩ := List.mem_map.mp h
  have hb := mem_indexTuples.mp ht
  exact ⟨hb.1, hb.2.1, hb.2.2.1⟩

theorem mem_rows_sph {sph : ℤ → ℕ → ℝ → ℝ → ℂ} {r : Row} (h : r ∈ rows sph) :
    r.sph_re = (sph r.m r.n r.theta r.phi).re ∧
      r.sph_im = (sph r.m r.n r.theta r.phi).im := by
  rw [rows_eq_map_indexTuples] at h
  obtain ⟨⟨n, m, j, k⟩, ht, rfl⟩ := List.mem_map.mp h
  exact ⟨rfl, rfl⟩

theorem indexTuples_head : indexTuples.head? = some (0, 0, 0, 0) := by decide

theorem rows_head (sph : ℤ → ℕ → ℝ → ℝ → ℂ) :
    (rows sph).head? = some (rowOf sph (0, 0, 0, 0)) := by
  rw [rows_eq_map_indexTuples, List.head?_map, indexTuples_head]
  rfl

theorem countP_n_zero : indexTuples.countP (fun t => t.1 == 0) = 200 := by
  simp only [indexTuples, n_max, num_phis, num_thetas]
  simp [List.countP_flatMap, List.countP_map, Function.comp_def, mRange]
  decide

/-! ### Comma counting in the rendered lines -/

theorem natStr_comma_free {n : ℕ} (h : n ≤ 10) :
    ((toString n).data.count (',')) = 0 := by
  interval_cases n <;> decide

theorem intStr_comma_free {m : ℤ} (h1 : -10 ≤ m) (h2 : m ≤ 10) :
    ((toString m).data.count (',')) = 0 := by
  interval_cases m <;> decide

theorem comma_data : ((",").data.count (',')) = 1 := by decide

theorem str00_comma_free : ((("0.0") : String).data.count (',')) = 0 := by decide

theorem renderRow_comma_count (fmt : ℝ → String) (r : Row)
    (hn : ((toString r.n).data.count (',')) = 0)
    (hm : ((toString r.m).data.count (',')) = 0)
    (hf : ∀ x : ℝ, ((fmt x).data.count (',')) = 0) :
    ((renderRow fmt r).data.count (',')) = 5 := by
  simp [renderRow, String.data_append, List.count_append, hn, hm, hf, comma_data]

/-! ### The claims -/

/-- C1: with the fixed constants `num_phis = 10` and `n_max = 10`, the
program emits exactly one header row followed by exactly 24,200 data rows:
the data rows are exactly the image of the index-tuple list, whose length
is 24,200, and every valid `(n, m, j, k)` with `0 ≤ n ≤ 10`, `-n ≤ m ≤ n`,
`j < 10`, `k < 20` occurs exactly once in it. -/
theorem claim_C1 (fmt : ℝ → String) (sph : ℤ → ℕ → ℝ → ℝ → ℂ) :
    outputLines fmt sph = header :: (rows sph).map (renderRow fmt) ∧
    (rows sph).length = 24200 ∧
    rows sph = indexTuples.map (rowOf sph) ∧
    (∀ (n : ℕ) (m : ℤ) (j k : ℕ), n ≤ 10 → -(n : ℤ) ≤ m → m ≤ n → j < 10 → k < 20 →
      indexTuples.countP (fun t => decide (t = (n, m, j, k))) = 1) := by
  refine ⟨rfl, ?_, rows_eq_map_indexTuples sph, ?_⟩
  · rw [rows_eq_map_indexTuples, List.length_map, indexTuples_length]
  · intro n m j k h1 h2 h3 h4 h5
    exact List.count_eq_one_of_mem indexTuples_nodup
      (mem_indexTuples.mpr ⟨h1, h2, h3, h4, h5⟩)

theorem claim_C1_witness :
    indexTuples.countP (fun t => decide (t = (2, -1, 3, 4))) = 1 :=
  (claim_C1 (fun _ => ("")) (fun _ _ _ _ => 0)).2.2.2 2 (-1) 3 4
    (by norm_num) (by norm_num) (by norm_num) (by norm_num) (by norm_num)

/-- C2: the data rows appear in strictly ascending lexicographic order of
`(n, m, phi-index, theta-index)`: the index-tuple list is pairwise
`idxLT`-ordered, the rows are its image in that order, and the angle
values grow strictly with their indices. -/
theorem claim_C2 (sph : ℤ → ℕ → ℝ → ℝ → ℂ) :
    List.Pairwise idxLT indexTuples ∧
    rows sph = indexTuples.map (rowOf sph) ∧
    (∀ a b : ℕ, a < b → phiVal a < phiVal b) ∧
    (∀ a b : ℕ, a < b → thetaVal a < thetaVal b) :=
  ⟨indexTuples_pairwise, rows_eq_map_indexTuples sph,
    fun _ _ h => phiVal_lt h, fun _ _ h => thetaVal_lt h⟩

theorem claim_C2_witness : phiVal 0 < phiVal 1 ∧ thetaVal 0 < thetaVal 1 :=
  ⟨(claim_C2 (fun _ _ _ _ => 0)).2.2.1 0 1 (by norm_num),
    (claim_C2 (fun _ _ _ _ => 0)).2.2.2 0 1 (by norm_num)⟩

/-- C3: every emitted row's `sph_re` and `sph_im` fields are exactly the
real and imaginary parts of the delegated function applied to that row's
arguments in the order `(m, n, theta, phi)`. -/
theorem claim_C3 (sph : ℤ → ℕ → ℝ → ℝ → ℂ) :
    ∀ r ∈ rows sph, r.sph_re = (sph r.m r.n r.theta r.phi).re ∧
      r.sph_im = (sph r.m r.n r.theta r.phi).im :=
  fun _ h => mem_rows_sph h

theorem claim_C3_witness :
    (rowOf (fun _ _ _ _ => Complex.I) (0, 0, 0, 0)).sph_re = 0 ∧
      (rowOf (fun _ _ _ _ => Complex.I) (0, 0, 0, 0)).sph_im = 1 := by
  have hmem : rowOf (fun _ _ _ _ => Complex.I) (0, 0, 0, 0) ∈
      rows (fun _ _ _ _ => Complex.I) := by
    rw [rows_eq_map_indexTuples]
    exact List.mem_map_of_mem _ (by decide)
  have h := claim_C3 (fun _ _ _ _ => Complex.I) _ hmem
  simpa using h

/-- C4: the theta grid has 20 entries `theta_k = 2 pi k / (2 num_phis)`,
starts at 0, is strictly increasing, and each consecutive step is
`pi / 10`. -/
theorem claim_C4 :
    thetas.length = 20 ∧
    (∀ k : ℕ, k < 20 → thetas.getD k 0 = 2 * π * k / (2 * num_phis)) ∧
    thetas.getD 0 0 = 0 ∧
    List.Pairwise (fun a b : ℝ => a < b) thetas ∧
    (∀ k : ℕ, k + 1 < 20 → thetas.getD (k + 1) 0 - thetas.getD k 0 = π / 10) := by
  refine ⟨thetas_length, ?_, ?_, thetas_sorted, ?_⟩
  · intro k hk
    rw [thetas_getD hk, num_phis]
    push_cast
    ring
  · rw [thetas_getD (by norm_num)]
    simp
  · intro k hk
    rw [thetas_getD hk, thetas_getD (by omega)]
    push_cast
    ring

theorem claim_C4_witness :
    thetas.getD 5 0 = 2 * π * 5 / (2 * num_phis) ∧
      thetas.getD 1 0 - thetas.getD 0 0 = π / 10 :=
  ⟨claim_C4.2.1 5 (by norm_num), claim_C4.2.2.2.2 0 (by norm_num)⟩

/-- C5: the phi grid has 10 entries `phi_j = pi j / num_phis`, starts at
0, is strictly increasing, and each consecutive step is `pi / 10`. -/
theorem claim_C5 :
    phis.length = 10 ∧
    (∀ j : ℕ, j < 10 → phis.getD j 0 = π * j / num_phis) ∧
    phis.getD 0 0 = 0 ∧
    List.Pairwise (fun a b : ℝ => a < b) phis ∧
    (∀ j : ℕ, j + 1 < 10 → phis.getD (j + 1) 0 - phis.getD j 0 = π / 10) := by
  refine ⟨phis_length, ?_, ?_, phis_sorted, ?_⟩
  · intro j hj
    rw [phis_getD hj, num_phis]
    push_cast
    ring
  · rw [phis_getD (by norm_num)]
    simp
  · intro j hj
    rw [phis_getD hj, phis_getD (by omega)]
    push_cast
    ring

theorem claim_C5_witness :
    phis.getD 5 0 = π * 5 / num_phis ∧
      phis.getD 1 0 - phis.getD 0 0 = π / 10 :=
  ⟨claim_C5.2.1 5 (by norm_num), claim_C5.2.2.2.2 0 (by norm_num)⟩

/-- C6: the first output line is exactly the literal header
`n,m,theta,phi,sph_re,sph_im`; every subsequent line is the plain
comma-intercalation of exactly six fields in the fixed order
`n, m, theta, phi, sph_re, sph_im` with nothing added (no quoting, no
escaping) and, for any float formatter whose outputs contain no comma,
exactly five comma characters; and there is no footer: the output is the
header plus exactly one line per data row. -/
theorem claim_C6 (fmt : ℝ → String) (sph : ℤ → ℕ → ℝ → ℝ → ℂ)
    (hfmt : ∀ x : ℝ, ((fmt x).data.count (',')) = 0) :
    outputLines fmt sph = "n,m,theta,phi,sph_re,sph_im" ::
        (rows sph).map (renderRow fmt) ∧
    (∀ r ∈ rows sph,
      renderRow fmt r = String.intercalate (",") [toString r.n, toString r.m,
        fmt r.theta, fmt r.phi, fmt r.sph_re, fmt r.sph_im] ∧
      ((renderRow fmt r).data.count (',')) = 5) ∧
    (outputLines fmt sph).length = 1 + (rows sph).length := by
  refine ⟨rfl, ?_, by simp [outputLines, Nat.add_comm]⟩
  intro r hr
  obtain ⟨hn10, hml, hmu⟩ := mem_rows_bounds hr
  refine ⟨rfl, renderRow_comma_count fmt r (natStr_comma_free hn10) ?_ hfmt⟩
  exact intStr_comma_free (by omega) (by omega)

theorem claim_C6_witness :
    (outputLines (fun _ => ("0.0")) (fun _ _ _ _ => 0)).length =
      1 + (rows (fun _ _ _ _ => 0)).length :=
  (claim_C6 (fun _ => ("0.0")) (fun _ _ _ _ => 0) (fun _ => str00_comma_free)).2.2

/-- C7: under the spec's model of the delegated routine, the first data
row is `n = 0, m = 0, theta = 0, phi = 0` with real part
`1 / (2 sqrt pi)` (within `1e-8` of `0.28209479177387814`) and imaginary
part `0`; there are 200 iteration tuples with `n = 0`, and every row with
`n = 0` has `m = 0`, that same constant real part, and imaginary part
`0`. -/
theorem claim_C7 :
    (rows sph_harm).head? = some { n := 0, m := 0, theta := 0, phi := 0,
                                   sph_re := 1 / (2 * Real.sqrt π), sph_im := 0 } ∧
    |1 / (2 * Real.sqrt π) - 0.28209479177387814| < 1e-8 ∧
    indexTuples.countP (fun t => t.1 == 0) = 200 ∧
    (∀ r ∈ rows sph_harm, r.n = 0 →
      r.m = 0 ∧ r.sph_re = 1 / (2 * Real.sqrt π) ∧ r.sph_im = 0) := by
  refine ⟨?_, sph_const_approx, countP_n_zero, ?_⟩
  · rw [rows_head]
    refine congrArg some (Row.ext rfl rfl ?_ ?_ ?_ ?_)
    · rw [show (rowOf sph_harm (0, 0, 0, 0)).theta = thetaVal 0 from rfl, thetaVal_eq]
      simp
    · rw [show (rowOf sph_harm (0, 0, 0, 0)).phi = phiVal 0 from rfl, phiVal_eq]
      simp
    · rw [show (rowOf sph_harm (0, 0, 0, 0)).sph_re =
        (sph_harm 0 0 (thetaVal 0) (phiVal 0)).re from rfl, sph_harm_zero_zero]
      exact Complex.ofReal_re _
    · rw [show (rowOf sph_harm (0, 0, 0, 0)).sph_im =
        (sph_harm 0 0 (thetaVal 0) (phiVal 0)).im from rfl, sph_harm_zero_zero]
      exact Complex.ofReal_im _
  · intro r hr hn0
    rw [rows_eq_map_indexTuples] at hr
    obtain ⟨⟨n, m, j, k⟩, ht, rfl⟩ := List.mem_map.mp hr
    have hb := mem_indexTuples.mp ht
    have hn : n = 0 := hn0
    subst hn
    have hm : m = 0 := by
      have h1 := hb.2.1
      have h2 := hb.2.2.1
      omega
    subst hm
    refine ⟨rfl, ?_, ?_⟩
    · rw [show (rowOf sph_harm (0, 0, j, k)).sph_re =
        (sph_harm 0 0 (thetaVal k) (phiVal j)).re from rfl, sph_harm_zero_zero]
      exact Complex.ofReal_re _
    · rw [show (rowOf sph_harm (0, 0, j, k)).sph_im =
        (sph_harm 0 0 (thetaVal k) (phiVal j)).im from rfl, sph_harm_zero_zero]
      exact Complex.ofReal_im _

theorem claim_C7_witness :
    (rowOf sph_harm (0, 0, 3, 7)).m = 0 ∧
      (rowOf sph_harm (0, 0, 3, 7)).sph_re = 1 / (2 * Real.sqrt π) ∧
      (rowOf sph_harm (0, 0, 3, 7)).sph_im = 0 := by
  have hmem : rowOf sph_harm (0, 0, 3, 7) ∈ rows sph_harm := by
    rw [rows_eq_map_indexTuples]
    exact List.mem_map_of_mem _ (by decide)
  exact claim_C7.2.2.2 _ hmem rfl

/-- C8: the program is deterministic: the sequence of argument tuples
passed to the delegated function is a fixed list independent of the run,
and two runs whose float formatter and delegated function agree pointwise
produce the same sequence of output lines. -/
theorem claim_C8 (fmt1 fmt2 : ℝ → String) (sph1 sph2 : ℤ → ℕ → ℝ → ℝ → ℂ)
    (hf : ∀ x : ℝ, fmt1 x = fmt2 x)
    (hs : ∀ (m : ℤ) (n : ℕ) (theta phi : ℝ), sph1 m n theta phi = sph2 m n theta phi) :
    outputLines fmt1 sph1 = outputLines fmt2 sph2 ∧
    rows sph1 = rows sph2 ∧
    sphCalls = indexTuples.map callOf := by
  have h1 : fmt1 = fmt2 := funext hf
  have h2 : sph1 = sph2 :=
    funext fun m => funext fun n => funext fun theta => funext fun phi => hs m n theta phi
  subst h1
  subst h2
  exact ⟨rfl, rfl, sphCalls_eq_map_indexTuples⟩

theorem claim_C8_witness :
    outputLines (fun _ => ("")) (fun _ _ _ _ => 0) =
      outputLines (fun _ => ("")) (fun _ _ _ _ => 0) :=
  (claim_C8 (fun _ => ("")) (fun _ => ("")) (fun _ _ _ _ => 0) (fun _ _ _ _ => 0)
    (fun _ => rfl) (fun _ _ _ _ => rfl)).1

/-- C9: every call the program makes to the delegated function has a
degree `n` with `0 ≤ n ≤ 10` and an order `m` with `-n ≤ m ≤ n` (hence
`|m| ≤ n`), so the domain-error branch of the (spec-modelled) checked
evaluation never fires on any of the program's calls. -/
theorem claim_C9 :
    ∀ c ∈ sphCalls,
      (0 ≤ (c.2.1 : ℤ) ∧ (c.2.1 : ℤ) ≤ 10 ∧ -(c.2.1 : ℤ) ≤ c.1 ∧ c.1 ≤ c.2.1) ∧
      (sph_harm_checked c.1 c.2.1 c.2.2.1 c.2.2.2).isSome = true := by
  intro c hc
  rw [sphCalls_eq_map_indexTuples] at hc
  obtain ⟨⟨n, m, j, k⟩, ht, rfl⟩ := List.mem_map.mp hc
  have hb := mem_indexTuples.mp ht
  refine ⟨⟨by positivity, by exact_mod_cast hb.1, hb.2.1, hb.2.2.1⟩, ?_⟩
  show (sph_harm_checked m n (thetaVal k) (phiVal j)).isSome = true
  have hmn : m.natAbs ≤ n := by
    have h1 := hb.2.1
    have h2 := hb.2.2.1
    omega
  rw [sph_harm_checked, if_pos hmn]
  rfl

theorem claim_C9_witness :
    (sph_harm_checked (0 : ℤ) 0 (thetaVal 0) (phiVal 0)).isSome = true := by
  have hmem : callOf (0, 0, 0, 0) ∈ sphCalls := by
    rw [sphCalls_eq_map_indexTuples]
    exact List.mem_map_of_mem _ (by decide)
  exact (claim_C9 _ hmem).2

/-- C10: the angle grids are fixed data: the iteration decomposes into
121 per-`(n, m)` blocks, and for every `(n, m)` the block's sequence of
`(phi, theta)` pairs is the same 200-element list `angleCombos`, in the
same order. -/
theorem claim_C10 (sph : ℤ → ℕ → ℝ → ℝ → ℂ) :
    rows sph = nmPairs.flatMap (fun p => blockFor sph p.1 p.2) ∧
    nmPairs.length = 121 ∧
    (∀ (n : ℕ) (m : ℤ),
      (blockFor sph n m).map (fun r => (r.phi, r.theta)) = angleCombos) ∧
    angleCombos.length = 200 :=
  ⟨rows_eq_flatMap_blocks sph, nmPairs_length,
    fun n m => blockFor_angles sph n m, angleCombos_length⟩

end ScipyComparison
